import Mathlib

/- Verification development for the temporal analytics core of the
   habitTracker repository: the streak utilities and `getCompletionRate` of
   `src/utils/dateUtils.ts` and the `getHabitStats` fold of
   `src/hooks/useHabits.ts`.

   Calendar dates are modeled as integer day numbers: the number of days since
   1970-01-01 (which was a Thursday).  The source manipulates JavaScript Date
   values at local midnight and compares formatted "YYYY-MM-DD" strings; for
   valid dates, string equality and lexicographic order (`localeCompare`)
   agree with day-number equality and order, and `setDate` / `getTime`
   day-stepping is addition on day numbers (the spec excludes multi-timezone
   and DST concerns, so a calendar day is one day-number step).  -/

/-- Day-of-week index of a day number, 0 = Sunday .. 6 = Saturday, matching
JavaScript `Date.getDay` (1970-01-01, day number 0, was a Thursday, index 4). -/
def dayOfWeek (n : Int) : Int := (n + 4) % 7

/-- Weekday names indexed by `Date.getDay`, as in the source's `dayNames`
arrays (`['sunday', 'monday', ..., 'saturday']`). -/
def dayNames : List String :=
  ["sunday", "monday", "tuesday", "wednesday", "thursday", "friday", "saturday"]

/-- Name of the weekday of day number `n` (the source's
`dayNames[date.getDay()]`). -/
def dayName (n : Int) : String := dayNames.getD (dayOfWeek n).toNat ""

/-- Schedule membership test used inline by the streak and rate calculators:
`selectedDays.includes(dayName)`. -/
def isScheduledDay (selectedDays : List String) (n : Int) : Bool :=
  selectedDays.contains (dayName n)

/-- Civil calendar date with local year/month/day components of a JavaScript
Date; `month` here is 1..12 (the source's `getMonth() + 1`). -/
structure CDate where
  year : Int
  month : Int
  day : Int

/-- Number of days from 1970-01-01 to the given civil date (the standard
civil-from-days conversion), modeling the source's `new Date(y, m, d)`
construction and `formatDate` round trip on day numbers. -/
def daysFromCivil (y m d : Int) : Int :=
  let y' := if m ≤ 2 then y - 1 else y
  let era := (if 0 ≤ y' then y' else y' - 399) / 400
  let yoe := y' - era * 400
  let doy := (153 * (if 2 < m then m - 3 else m + 9) + 2) / 5 + d - 1
  let doe := yoe * 365 + yoe / 4 - yoe / 100 + doy
  era * 146097 + doe - 719468

/-- Day number of a civil date. -/
def CDate.toDay (c : CDate) : Int := daysFromCivil c.year c.month c.day

/-- Embedding of `getWeekStart`: the source sets the day of month to
`d.getDate() - day + (day === 0 ? -6 : 1)`, which on day numbers is exactly
this arithmetic (JavaScript `setDate` normalizes across month boundaries). -/
def getWeekStart (n : Int) : Int :=
  n - dayOfWeek n + (if dayOfWeek n = 0 then -6 else 1)

/-- Embedding of `getMonthStart`: the first day of today's month. -/
def getMonthStart (today : CDate) : Int := daysFromCivil today.year today.month 1

/-- Embedding of `getDateRange`: every day number from `s` to `e` inclusive,
ascending (the source pushes `formatDate(currentDate)` while
`currentDate <= endDate`), empty when `s > e`. -/
def getDateRange (s e : Int) : List Int :=
  if s ≤ e then s :: getDateRange (s + 1) e else []
termination_by (e + 1 - s).toNat
decreasing_by simp_wf; omega

/-- JavaScript `Math.round` applied to the exact nonnegative ratio
`num / den`, i.e. `floor(num / den + 1/2)` (round half up). -/
def jsRound (num den : Nat) : Nat := (2 * num + den) / (2 * den)

/-- Backward lockstep loop of the daily branch of `calculateStreak`: the
source walks the descending-sorted completion array by index, in step with the
expected previous calendar day, incrementing while the entry at the current
index equals the expected day and breaking at the first mismatch. -/
def dailyLockstep : List Int → Int → Nat → Nat
  | [], _, streak => streak
  | c :: rest, expected, streak =>
    if c = expected then dailyLockstep rest (expected - 1) (streak + 1) else streak

/-- Backward walk of the scheduled branch of `calculateStreak`, returning the
accumulated streak together with the list of day numbers the loop inspected.
`limit` models the source's safety cutoff
`new Date(Date.now() - 365*24*60*60*1000)` at local midnight of day
`today - 365`: after stepping back one day the loop breaks once the walked day
falls below it. -/
def schedWalk (completions : List Int) (days : List String) (limit : Int) :
    Int → Nat → Nat × List Int
  | d, streak =>
    if isScheduledDay days d then
      if completions.contains d then
        if d - 1 < limit then (streak + 1, [d])
        else
          let r := schedWalk completions days limit (d - 1) (streak + 1)
          (r.1, d :: r.2)
      else (streak, [d])
    else
      if d - 1 < limit then (streak, [d])
      else
        let r := schedWalk completions days limit (d - 1) streak
        (r.1, d :: r.2)
termination_by d => (d + 1 - limit).toNat
decreasing_by all_goals simp_wf; omega

/-- Embedding of `calculateStreak` (the current streak).  `completions` are
completion day numbers, `today` is the source's
`targetDate || getTodayString()`; it also stands for the wall clock
(`Date.now()`) from which the 365-day cutoff is taken, as in the default
no-`targetDate` call. -/
def calculateStreak (completions : List Int) (selectedDays : List String)
    (today : Int) : Nat :=
  if completions = [] then 0
  else
    let sortedCompletions := completions.insertionSort (· ≥ ·)
    if selectedDays = [] then
      if sortedCompletions.contains today then
        dailyLockstep sortedCompletions (today - 1) 1
      else
        dailyLockstep sortedCompletions (today - 1) 0
    else
      if isScheduledDay selectedDays today && sortedCompletions.contains today then
        (schedWalk sortedCompletions selectedDays (today - 365) (today - 1) 1).1
      else
        (schedWalk sortedCompletions selectedDays (today - 365) (today - 1) 0).1

/-- Loop state of the two `calculateBestStreak` scans: best run so far,
current run length, and the previous (daily) or last scheduled (weekly)
completion processed (`null` before the first). -/
structure BState where
  best : Nat
  cur : Nat
  last : Option Int

/-- Forward scan of the daily branch of `calculateBestStreak` over the
ascending-sorted completions: a day difference of exactly 1 extends the
current run, anything else closes it and starts a run of length 1. -/
def bestFoldDaily : BState → List Int → BState
  | st, [] => st
  | st, c :: rest =>
    match st.last with
    | none => bestFoldDaily ⟨st.best, 1, some c⟩ rest
    | some prev =>
      if c - prev = 1 then bestFoldDaily ⟨st.best, st.cur + 1, some c⟩ rest
      else bestFoldDaily ⟨max st.best st.cur, 1, some c⟩ rest

/-- Search loop of the scheduled branch of `calculateBestStreak`: starting at
`expected`, advance day by day to the first scheduled day, but never beyond
`current + 1` (the source increments while `expectedDate <= currentDate`). -/
def nextScheduled (days : List String) : Int → Int → Int
  | expected, current =>
    if expected ≤ current then
      if isScheduledDay days expected then expected
      else nextScheduled days (expected + 1) current
    else expected
termination_by expected current => (current + 1 - expected).toNat
decreasing_by simp_wf; omega

/-- Forward scan of the scheduled branch of `calculateBestStreak`: completions
on unscheduled days are skipped without touching the state; a scheduled
completion extends the run iff it equals the next scheduled day after the last
counted completion, and otherwise closes the run. -/
def bestFoldSched (days : List String) : BState → List Int → BState
  | st, [] => st
  | st, c :: rest =>
    if isScheduledDay days c then
      match st.last with
      | none => bestFoldSched days ⟨st.best, 1, some c⟩ rest
      | some last =>
        if nextScheduled days (last + 1) c = c then
          bestFoldSched days ⟨st.best, st.cur + 1, some c⟩ rest
        else bestFoldSched days ⟨max st.best st.cur, 1, some c⟩ rest
    else bestFoldSched days st rest

/-- Embedding of `calculateBestStreak` (the historical best streak). -/
def calculateBestStreak (completions : List Int) (selectedDays : List String) : Nat :=
  if completions = [] then 0
  else
    let sortedCompletions := completions.insertionSort (· ≤ ·)
    if selectedDays = [] then
      let st := bestFoldDaily ⟨0, 0, none⟩ sortedCompletions
      max st.best st.cur
    else
      let st := bestFoldSched selectedDays ⟨0, 0, none⟩ sortedCompletions
      max st.best st.cur

/-- Core fields of the source's `Habit` record; UI-only fields (id, name,
category, description, colors) are omitted as they never reach the analytics
functions. -/
structure Habit where
  createdDate : Int
  completions : List Int
  selectedDays : List String
  currentStreak : Nat
  bestStreak : Nat

/-- Period selector of `getCompletionRate`: `'week' | 'month' | number`. -/
inductive Period where
  | week
  | month
  | days (n : Int)

/-- Start of the requested period: this week's Monday, this month's first, or
`today - (N - 1)` for the legacy N-day window. -/
def periodStart (period : Period) (today : CDate) : Int :=
  match period with
  | .week => getWeekStart today.toDay
  | .month => getMonthStart today
  | .days n => today.toDay - (n - 1)

/-- Effective window start of `getCompletionRate`: the habit's creation day
when it is later than the period start (`habitCreatedDate > startDate`),
otherwise the period start. -/
def effectiveStart (habit : Habit) (period : Period) (today : CDate) : Int :=
  if habit.createdDate > periodStart period today then habit.createdDate
  else periodStart period today

/-- Optimistic window end of `getCompletionRate`: today when today is
completed, otherwise yesterday. -/
def optimisticEnd (habit : Habit) (today : CDate) : Int :=
  if habit.completions.contains today.toDay then today.toDay else today.toDay - 1

/-- Elapsed days of the window restricted to scheduled days (the source's
`scheduledElapsedDays` filter: an empty or absent `selectedDays` keeps every
day, otherwise only days whose weekday name is selected). -/
def scheduledElapsedDays (habit : Habit) (period : Period) (today : CDate) :
    List Int :=
  (getDateRange (effectiveStart habit period today) (optimisticEnd habit today)).filter
    (fun n => habit.selectedDays.isEmpty || isScheduledDay habit.selectedDays n)

/-- Number of completions falling on scheduled elapsed days (the source's
`completedDays` count). -/
def completedDays (habit : Habit) (period : Period) (today : CDate) : Nat :=
  (habit.completions.filter
    (fun c => (scheduledElapsedDays habit period today).contains c)).length

/-- Embedding of `getCompletionRate`: 0 when no scheduled day has elapsed, the
new-habit 100% carve-out when the only scheduled elapsed day is a completed
today, and otherwise the rounded ratio of completed to scheduled elapsed
days. -/
def getCompletionRate (habit : Habit) (period : Period) (today : CDate) : Nat :=
  let sched := scheduledElapsedDays habit period today
  if sched.length = 0 then 0
  else if sched.length = 1 ∧ sched.headD 0 = today.toDay ∧
      completedDays habit period today = 1 then 100
  else if 0 < sched.length then
    jsRound (100 * completedDays habit period today) sched.length
  else 0

/-- Embedding of `updateHabitStreaks`: recompute the current streak and store
as best streak the maximum of the recomputed best streak and the current
streak. -/
def updateHabitStreaks (habit : Habit) (today : Int) : Habit :=
  let currentStreak := calculateStreak habit.completions habit.selectedDays today
  let bestStreak :=
    max (calculateBestStreak habit.completions habit.selectedDays) currentStreak
  { habit with currentStreak := currentStreak, bestStreak := bestStreak }

/-- Summary record returned by `getHabitStats`. -/
structure HabitStats where
  totalHabits : Nat
  totalCompletions : Nat
  averageCompletionRate : Nat
  longestStreak : Nat
  currentActiveStreaks : Nat

/-- Embedding of the `getHabitStats` fold of `useHabits.ts` (the monthly
completion rate recomputation needs today's date; `Math.max(...bests, 0)` is
the right fold of `max` with base 0). -/
def getHabitStats (habits : List Habit) (today : CDate) : HabitStats :=
  let totalHabits := habits.length
  let totalCompletions := habits.foldl (fun sum h => sum + h.completions.length) 0
  let averageCompletionRate :=
    if 0 < totalHabits then
      jsRound (habits.foldl (fun sum h => sum + getCompletionRate h Period.month today) 0)
        totalHabits
    else 0
  let longestStreak := (habits.map (fun h => h.bestStreak)).foldr max 0
  let currentActiveStreaks := (habits.filter (fun h => 0 < h.currentStreak)).length
  ⟨totalHabits, totalCompletions, averageCompletionRate, longestStreak,
    currentActiveStreaks⟩

/-- Chain predicate relating the two streak computations for scheduled habits:
`chainFrom days p es` says `es` lists successive completed scheduled days in
ascending order, each one the next scheduled day after its predecessor (no
scheduled day lies strictly between), starting strictly after the anchor `p`
with no scheduled day strictly between `p` and the first element. -/
def chainFrom (days : List String) : Int → List Int → Prop
  | _, [] => True
  | p, e :: es =>
    p < e ∧ (∀ z, p < z → z < e → isScheduledDay days z = false) ∧
      isScheduledDay days e = true ∧ chainFrom days e es

/-- Chain of consecutive scheduled days, with no anchor below the first
element. -/
def isChain (days : List String) : List Int → Prop
  | [] => True
  | e :: es => isScheduledDay days e = true ∧ chainFrom days e es

/-- Run predicate for daily habits: `runFrom p es` says `es` lists
consecutive calendar days in ascending order starting at `p + 1`. -/
def runFrom : Int → List Int → Prop
  | _, [] => True
  | p, e :: es => e = p + 1 ∧ runFrom e es

/-- Run of consecutive calendar days, with no anchor below the first
element. -/
def isRun : List Int → Prop
  | [] => True
  | e :: es => runFrom e es

/-! ### Basic lemmas about the calendar utilities -/

theorem mem_getDateRange {s e x : Int} : x ∈ getDateRange s e ↔ s ≤ x ∧ x ≤ e := by
  rw [getDateRange]
  split
  next h =>
    rw [List.mem_cons]
    constructor
    · rintro (rfl | hx)
      · omega
      · have := (mem_getDateRange (s := s + 1)).1 hx
        omega
    · rintro ⟨h1, h2⟩
      by_cases hs : x = s
      · exact Or.inl hs
      · exact Or.inr ((mem_getDateRange (s := s + 1)).2 ⟨by omega, h2⟩)
  next h =>
    simp only [List.not_mem_nil, false_iff]
    omega
termination_by (e + 1 - s).toNat
decreasing_by all_goals simp_wf; omega

theorem getDateRange_length (s e : Int) : (getDateRange s e).length = (e + 1 - s).toNat := by
  rw [getDateRange]
  split
  next h =>
    rw [List.length_cons, getDateRange_length (s + 1) e]
    omega
  next h =>
    simp only [List.length_nil]
    omega
termination_by (e + 1 - s).toNat
decreasing_by simp_wf; omega

theorem getDateRange_snoc {s e : Int} (h : s ≤ e) :
    getDateRange s e = getDateRange s (e - 1) ++ [e] := by
  by_cases hse : s = e
  · subst hse
    rw [getDateRange, if_pos le_rfl, getDateRange, if_neg (by omega),
      getDateRange, if_neg (by omega)]
    rfl
  · rw [getDateRange, if_pos h, getDateRange_snoc (s := s + 1) (by omega)]
    conv_rhs => rw [getDateRange, if_pos (show s ≤ e - 1 by omega)]
    simp
termination_by (e + 1 - s).toNat
decreasing_by simp_wf; omega

theorem runFrom_getDateRange (p e : Int) : runFrom p (getDateRange (p + 1) e) := by
  rw [getDateRange]
  split
  next h =>
    exact ⟨rfl, runFrom_getDateRange (p + 1) e⟩
  next h =>
    trivial
termination_by (e - p).toNat
decreasing_by simp_wf; omega

theorem isRun_getDateRange (s e : Int) : isRun (getDateRange s e) := by
  rw [getDateRange]
  split
  · exact runFrom_getDateRange s e
  · trivial

/-! ### C8: week start -/

/-- C8: `getWeekStart` returns the Monday on or before the given day: its
weekday index is 1 (Monday), it is at most the given day, it is less than
seven days before it, and for a Sunday it is exactly six days earlier. -/
theorem getWeekStart_monday_on_or_before (n : Int) :
    dayOfWeek (getWeekStart n) = 1 ∧ getWeekStart n ≤ n ∧ n < getWeekStart n + 7 ∧
      (dayOfWeek n = 0 → getWeekStart n = n - 6) := by
  unfold getWeekStart dayOfWeek
  split
  next h => exact ⟨by omega, by omega, by omega, fun _ => by omega⟩
  next h => exact ⟨by omega, by omega, by omega, fun hh => absurd hh h⟩

/-- Witness for C8 at a concrete Sunday: 2024-06-09 was a Sunday and its week
start is six days earlier (Monday 2024-06-03). -/
theorem getWeekStart_monday_on_or_before_witness :
    getWeekStart (daysFromCivil 2024 6 9) = daysFromCivil 2024 6 9 - 6 :=
  (getWeekStart_monday_on_or_before (daysFromCivil 2024 6 9)).2.2.2 (by decide)

/-! ### C10: stored best streak is clamped up to the current streak -/

/-- C10: the habit returned by `updateHabitStreaks` always satisfies
`bestStreak >= currentStreak`, because the stored best streak is the maximum
of the recomputed best streak and the freshly computed current streak. -/
theorem updateHabitStreaks_best_ge_current (habit : Habit) (today : Int) :
    (updateHabitStreaks habit today).currentStreak ≤
      (updateHabitStreaks habit today).bestStreak := by
  simp [updateHabitStreaks]

/-! ### C1: daily current streak at the failing input -/

/-- C1: evaluation at the failing input.  Daily habit (`selectedDays = []`),
completions on 2024-06-10 and 2024-06-09, today = 2024-06-10: the claim
predicts a current streak of 2 (today is day 1, yesterday extends it), but the
code returns 1.  The daily branch's loop walks the descending-sorted
completion array from index 0, so when today is completed the entry at index 0
is today itself while the expected date is already yesterday; the mismatch
stops the loop at the initial value 1. -/
theorem calculateStreak_daily_failing_input :
    calculateStreak [daysFromCivil 2024 6 10, daysFromCivil 2024 6 9] []
      (daysFromCivil 2024 6 10) = 1 := by decide

/-! ### C3: best streak of a single completion -/

/-- C3 counterexample: a completion set with exactly one date whose weekday is
not scheduled gives a best streak of 0, not at least 1.  2024-06-11 was a
Tuesday; with `selectedDays = ["monday"]` the scheduled scan skips it. -/
theorem calculateBestStreak_single_unscheduled_zero :
    ¬ (1 ≤ calculateBestStreak [daysFromCivil 2024 6 11] ["monday"]) := by decide

/-- C3 (amended): with exactly one completion, the best streak is at least 1
provided the schedule is empty (daily habit) or the completion falls on a
scheduled day. -/
theorem calculateBestStreak_single_completion_pos (c : Int) (days : List String)
    (h : days = [] ∨ isScheduledDay days c = true) :
    1 ≤ calculateBestStreak [c] days := by
  by_cases hd : days = []
  · subst hd
    simp [calculateBestStreak, List.insertionSort, List.orderedInsert, bestFoldDaily]
  · rcases h with h | h
    · exact absurd h hd
    · simp [calculateBestStreak, List.insertionSort, List.orderedInsert, hd,
        bestFoldSched, h]

/-- Witness for C3 (amended) at a concrete input: one completion on Monday
2024-06-10 with `selectedDays = ["monday"]` gives a best streak of at least
1. -/
theorem calculateBestStreak_single_completion_pos_witness :
    1 ≤ calculateBestStreak [daysFromCivil 2024 6 10] ["monday"] :=
  calculateBestStreak_single_completion_pos _ _ (Or.inr (by decide))

/-! ### C6: the rate window never reaches before the creation date -/

/-- C6: every day entering the completion-rate computation — each scheduled
elapsed day (the denominator) and each completion counted on one (the
numerator) — is at or after the habit's creation date; and in the concrete
scenario with `createdDate = 2024-06-10` and a month period starting
2024-06-01, the effective start is 2024-06-10 while the period start is
2024-06-01. -/
theorem completionRate_window_starts_at_creation :
    (∀ (habit : Habit) (period : Period) (today : CDate),
        (∀ x ∈ scheduledElapsedDays habit period today, habit.createdDate ≤ x) ∧
        ∀ c ∈ habit.completions.filter
            (fun c => (scheduledElapsedDays habit period today).contains c),
          habit.createdDate ≤ c) ∧
      effectiveStart ⟨daysFromCivil 2024 6 10, [], [], 0, 0⟩ Period.month
          ⟨2024, 6, 15⟩ = daysFromCivil 2024 6 10 ∧
      periodStart Period.month ⟨2024, 6, 15⟩ = daysFromCivil 2024 6 1 := by
  refine ⟨?_, by decide, by decide⟩
  intro habit period today
  have key : ∀ x ∈ scheduledElapsedDays habit period today, habit.createdDate ≤ x := by
    intro x hx
    have hx' : x ∈ getDateRange (effectiveStart habit period today)
        (optimisticEnd habit today) := (List.mem_filter.1 hx).1
    have h1 : effectiveStart habit period today ≤ x := (mem_getDateRange.1 hx').1
    have h2 : habit.createdDate ≤ effectiveStart habit period today := by
      unfold effectiveStart
      split <;> omega
    omega
  refine ⟨key, ?_⟩
  intro c hc
  have hc' : (scheduledElapsedDays habit period today).contains c = true :=
    (List.mem_filter.1 hc).2
  exact key c (List.elem_iff.1 hc')

/-- Witness for C6: in the concrete scenario, the day 2024-06-10 itself is a
scheduled elapsed day and is at or after the creation date. -/
theorem completionRate_window_starts_at_creation_witness :
    (⟨daysFromCivil 2024 6 10, [daysFromCivil 2024 6 10], [], 0, 0⟩ : Habit).createdDate ≤
      daysFromCivil 2024 6 10 := by
  have hmem : daysFromCivil 2024 6 10 ∈
      scheduledElapsedDays ⟨daysFromCivil 2024 6 10, [daysFromCivil 2024 6 10], [], 0, 0⟩
        Period.month ⟨2024, 6, 15⟩ := by
    apply List.mem_filter.2
    refine ⟨mem_getDateRange.2 ⟨by decide, by decide⟩, by decide⟩
  exact (completionRate_window_starts_at_creation.1
    ⟨daysFromCivil 2024 6 10, [daysFromCivil 2024 6 10], [], 0, 0⟩
    Period.month ⟨2024, 6, 15⟩).1 _ hmem

/-! ### C4: the completion rate is between 0 and 100 -/

theorem jsRound_le_100 {c n : Nat} (hc : c ≤ n) (hn : 0 < n) :
    jsRound (100 * c) n ≤ 100 := by
  unfold jsRound
  have h := (Nat.div_lt_iff_lt_mul (x := 2 * (100 * c) + n) (y := 101)
    (k := 2 * n) (by omega)).2 (by omega)
  omega

theorem completedDays_le (habit : Habit) (period : Period) (today : CDate)
    (hnd : habit.completions.Nodup) :
    completedDays habit period today ≤ (scheduledElapsedDays habit period today).length := by
  unfold completedDays
  refine List.Subperm.length_le (List.subperm_of_subset (hnd.filter _) ?_)
  intro x hx
  exact List.elem_iff.1 (List.mem_filter.1 hx).2

/-- C4: for a duplicate-free completion set and any period selector (week,
month, or a positive day count N) the completion rate is an integer between 0
and 100 inclusive. -/
theorem getCompletionRate_between_0_and_100 (habit : Habit) (period : Period)
    (today : CDate) (hnd : habit.completions.Nodup)
    (hp : ∀ n, period = Period.days n → 0 < n) :
    0 ≤ getCompletionRate habit period today ∧
      getCompletionRate habit period today ≤ 100 := by
  refine ⟨Nat.zero_le _, ?_⟩
  simp only [getCompletionRate]
  split
  next => omega
  next =>
    split
    next => omega
    next =>
      split
      next h3 => exact jsRound_le_100 (completedDays_le habit period today hnd) h3
      next => omega

/-- Witness for C4 at a concrete input: a daily habit created 2024-06-10 with
a single completion that day, queried for the last 1 day on 2024-06-10. -/
theorem getCompletionRate_between_0_and_100_witness :
    0 ≤ getCompletionRate ⟨daysFromCivil 2024 6 10, [daysFromCivil 2024 6 10], [], 0, 0⟩
        (Period.days 1) ⟨2024, 6, 10⟩ ∧
      getCompletionRate ⟨daysFromCivil 2024 6 10, [daysFromCivil 2024 6 10], [], 0, 0⟩
        (Period.days 1) ⟨2024, 6, 10⟩ ≤ 100 :=
  getCompletionRate_between_0_and_100 _ _ _ (by decide)
    (fun n hn => by cases hn; decide)

/-! ### C5: the new-habit 100% carve-out and its exact trigger -/

theorem completedDays_single (habit : Habit) (period : Period) (today : CDate)
    (hnd : habit.completions.Nodup)
    (hs : scheduledElapsedDays habit period today = [today.toDay])
    (hm : today.toDay ∈ habit.completions) :
    completedDays habit period today = 1 := by
  unfold completedDays
  rw [hs]
  have hpred : (fun c : Int => ([today.toDay] : List Int).contains c) =
      (fun c : Int => c == today.toDay) := by
    funext c
    simp only [List.contains, List.elem_eq_mem, List.mem_singleton]
    rfl
  rw [hpred, ← List.countP_eq_length_filter]
  exact List.count_eq_one_of_mem hnd hm

/-- C5: the carve-out returns exactly 100 when the scheduled-elapsed set is
the single day `today` and today is completed; and when the scheduled-elapsed
set is a single day other than today, the result is the general rounded-ratio
formula instead. -/
theorem getCompletionRate_carveout (habit : Habit) (period : Period)
    (today : CDate) (hnd : habit.completions.Nodup) :
    (scheduledElapsedDays habit period today = [today.toDay] →
        today.toDay ∈ habit.completions →
        getCompletionRate habit period today = 100) ∧
      (∀ d, scheduledElapsedDays habit period today = [d] → d ≠ today.toDay →
        getCompletionRate habit period today =
          jsRound (100 * completedDays habit period today) 1) := by
  constructor
  · intro hs hm
    have hc := completedDays_single habit period today hnd hs hm
    simp only [getCompletionRate, hs, hc]
    norm_num
  · intro d hs hd
    simp only [getCompletionRate, hs]
    rw [if_neg (by simp), if_neg (by simp [hd]), if_pos (by simp)]
    simp

/-- Witness for C5 at a concrete input: a daily habit created Saturday
2024-06-15 and completed that day, queried for the week period on 2024-06-15;
the single scheduled elapsed day is today and the rate is 100. -/
theorem getCompletionRate_carveout_witness :
    getCompletionRate ⟨daysFromCivil 2024 6 15, [daysFromCivil 2024 6 15], [], 0, 0⟩
      Period.week ⟨2024, 6, 15⟩ = 100 := by
  have hs : scheduledElapsedDays
      ⟨daysFromCivil 2024 6 15, [daysFromCivil 2024 6 15], [], 0, 0⟩
      Period.week ⟨2024, 6, 15⟩ = [CDate.toDay ⟨2024, 6, 15⟩] := by
    unfold scheduledElapsedDays
    rw [show effectiveStart ⟨daysFromCivil 2024 6 15, [daysFromCivil 2024 6 15], [], 0, 0⟩
          Period.week ⟨2024, 6, 15⟩ = daysFromCivil 2024 6 15 from by decide,
      show optimisticEnd ⟨daysFromCivil 2024 6 15, [daysFromCivil 2024 6 15], [], 0, 0⟩
          ⟨2024, 6, 15⟩ = daysFromCivil 2024 6 15 from by decide,
      getDateRange, if_pos le_rfl, getDateRange, if_neg (by omega)]
    rfl
  exact (getCompletionRate_carveout _ _ _ (by decide)).1 hs (by decide)

/-! ### C7: the scheduled backward walk is bounded -/

theorem schedWalk_trace_bounds (completions : List Int) (days : List String)
    (limit : Int) (d : Int) (s : Nat) (hd : limit ≤ d) :
    ∀ x ∈ (schedWalk completions days limit d s).2, limit ≤ x ∧ x ≤ d := by
  intro x hx
  rw [schedWalk] at hx
  split at hx
  · split at hx
    · split at hx
      · simp only [List.mem_singleton] at hx
        omega
      · next h =>
        simp only [List.mem_cons] at hx
        rcases hx with rfl | hx'
        · omega
        · have := schedWalk_trace_bounds completions days limit (d - 1) (s + 1)
            (by omega) x hx'
          omega
    · simp only [List.mem_singleton] at hx
      omega
  · split at hx
    · simp only [List.mem_singleton] at hx
      omega
    · next h =>
      simp only [List.mem_cons] at hx
      rcases hx with rfl | hx'
      · omega
      · have := schedWalk_trace_bounds completions days limit (d - 1) s
          (by omega) x hx'
        omega
termination_by (d + 1 - limit).toNat
decreasing_by all_goals simp_wf; omega

theorem schedWalk_trace_length (completions : List Int) (days : List String)
    (limit : Int) (d : Int) (s : Nat) (hd : limit ≤ d) :
    (schedWalk completions days limit d s).2.length ≤ (d + 1 - limit).toNat := by
  rw [schedWalk]
  split
  · split
    · split
      · simp only [List.length_singleton]
        omega
      · next h =>
        have := schedWalk_trace_length completions days limit (d - 1) (s + 1) (by omega)
        simp only [List.length_cons]
        omega
    · simp only [List.length_singleton]
      omega
  · split
    · simp only [List.length_singleton]
      omega
    · next h =>
      have := schedWalk_trace_length completions days limit (d - 1) s (by omega)
      simp only [List.length_cons]
      omega
termination_by (d + 1 - limit).toNat
decreasing_by all_goals simp_wf; omega

theorem schedWalk_all_completed (completions : List Int) (days : List String)
    (limit : Int) (d : Int) (s : Nat) (hd : limit ≤ d)
    (H : ∀ z, limit ≤ z → z ≤ d → isScheduledDay days z = true → z ∈ completions) :
    (schedWalk completions days limit d s).1 =
      s + ((getDateRange limit d).filter (fun z => isScheduledDay days z)).length := by
  rw [schedWalk]
  split
  next hsch =>
    have hmem : completions.contains d = true :=
      List.elem_iff.2 (H d hd le_rfl hsch)
    rw [if_pos hmem]
    split
    · next hlim =>
      have hde : limit = d := by omega
      subst hde
      rw [getDateRange, if_pos le_rfl, getDateRange, if_neg (by omega)]
      simp [hsch]
    · next hlim =>
      have ih := schedWalk_all_completed completions days limit (d - 1) (s + 1)
        (by omega) (fun z h1 h2 h3 => H z h1 (by omega) h3)
      rw [getDateRange_snoc hd, List.filter_append]
      simp only [ih, List.length_append, List.filter_cons, hsch, List.filter_nil]
      simp
      omega
  next hsch =>
    split
    · next hlim =>
      have hde : limit = d := by omega
      subst hde
      rw [getDateRange, if_pos le_rfl, getDateRange, if_neg (by omega)]
      simp [hsch]
    · next hlim =>
      have ih := schedWalk_all_completed completions days limit (d - 1) s
        (by omega) (fun z h1 h2 h3 => H z h1 (by omega) h3)
      rw [getDateRange_snoc hd, List.filter_append]
      simp only [ih, List.length_append, List.filter_cons, List.filter_nil]
      simp [hsch]
termination_by (d + 1 - limit).toNat
decreasing_by all_goals simp_wf; omega

/-- C7: the backward walk of the scheduled branch of `calculateStreak`
terminates after at most 365 inspected days, every day it inspects lies
between `today - 365` and `today - 1`, and if no scheduled day in that window
is missing (so the streak never breaks and the walk runs into the 365-day
cutoff), it returns the streak value accumulated so far: the initial value
plus one for every scheduled day in the window. -/
theorem calculateStreak_walk_bounded (completions : List Int) (days : List String)
    (today : Int) (s : Nat) :
    (∀ x ∈ (schedWalk completions days (today - 365) (today - 1) s).2,
        today - 365 ≤ x ∧ x ≤ today - 1) ∧
      (schedWalk completions days (today - 365) (today - 1) s).2.length ≤ 365 ∧
      ((∀ z, today - 365 ≤ z → z ≤ today - 1 → isScheduledDay days z = true →
          z ∈ completions) →
        (schedWalk completions days (today - 365) (today - 1) s).1 =
          s + ((getDateRange (today - 365) (today - 1)).filter
            (fun z => isScheduledDay days z)).length) := by
  refine ⟨fun x hx => schedWalk_trace_bounds _ _ _ _ _ (by omega) x hx, ?_, ?_⟩
  · have := schedWalk_trace_length completions days (today - 365) (today - 1) s (by omega)
    omega
  · exact fun H => schedWalk_all_completed _ _ _ _ _ (by omega) H

/-- Witness for C7 at a concrete input: with every day of the window completed
and a Monday-only schedule, the walk starting at streak 0 returns exactly the
number of scheduled days in the 365-day window. -/
theorem calculateStreak_walk_bounded_witness :
    (schedWalk (getDateRange (-365) (-1)) ["monday"] (-365) (-1) 0).1 =
      0 + ((getDateRange (-365) (-1)).filter
        (fun z => isScheduledDay ["monday"] z)).length :=
  (calculateStreak_walk_bounded (getDateRange (-365) (-1)) ["monday"] 0 0).2.2
    (fun z h1 h2 _ => mem_getDateRange.2 ⟨h1, h2⟩)

/-! ### C9: the aggregate statistics fold -/

theorem foldl_add_map (habits : List Habit) (f : Habit → Nat) (a : Nat) :
    habits.foldl (fun sum h => sum + f h) a = a + (habits.map f).sum := by
  induction habits generalizing a with
  | nil => simp
  | cons h t ih =>
    simp only [List.foldl_cons, List.map_cons, List.sum_cons, ih (a + f h)]
    omega

/-- C9: `getHabitStats` is the pure fold the spec describes: the habit count,
the sum of completion-set sizes, the rounded mean of the per-habit monthly
completion rates, the maximum cached best streak (0 for the empty list), and
the number of habits with a positive cached current streak; on the empty list
every field is 0. -/
theorem getHabitStats_is_pure_fold (habits : List Habit) (today : CDate) :
    getHabitStats habits today =
      ⟨habits.length,
        (habits.map (fun h => h.completions.length)).sum,
        if habits.isEmpty then 0
        else jsRound ((habits.map (fun h => getCompletionRate h Period.month today)).sum)
          habits.length,
        (habits.map (fun h => h.bestStreak)).foldr max 0,
        habits.countP (fun h => decide (0 < h.currentStreak))⟩ ∧
      getHabitStats [] today = ⟨0, 0, 0, 0, 0⟩ := by
  constructor
  · simp only [getHabitStats, HabitStats.mk.injEq]
    refine ⟨trivial, ?_, ?_, trivial, ?_⟩
    · rw [foldl_add_map]
      omega
    · cases habits with
      | nil => simp
      | cons h t =>
        rw [if_pos (by simp), if_neg (by simp), foldl_add_map]
        simp
    · rw [← List.countP_eq_length_filter]
  · rfl

/-! ### C2: machinery relating the two streak computations -/

theorem chainFrom_gt (days : List String) :
    ∀ (es : List Int) (p : Int), chainFrom days p es → ∀ x ∈ es, p < x := by
  intro es
  induction es with
  | nil =>
    intro p _ x hx
    cases hx
  | cons e t ih =>
    intro p hc x hx
    simp only [chainFrom] at hc
    rcases List.mem_cons.1 hx with rfl | hx'
    · exact hc.1
    · exact lt_trans hc.1 (ih e hc.2.2.2 x hx')

theorem chainFrom_sched (days : List String) :
    ∀ (es : List Int) (p : Int), chainFrom days p es →
      ∀ x ∈ es, isScheduledDay days x = true := by
  intro es
  induction es with
  | nil =>
    intro p _ x hx
    cases hx
  | cons e t ih =>
    intro p hc x hx
    simp only [chainFrom] at hc
    rcases List.mem_cons.1 hx with rfl | hx'
    · exact hc.2.2.1
    · exact ih e hc.2.2.2 x hx'

theorem isChain_sched (days : List String) (es : List Int) (hch : isChain days es) :
    ∀ x ∈ es, isScheduledDay days x = true := by
  cases es with
  | nil =>
    intro x hx
    cases hx
  | cons e t =>
    simp only [isChain] at hch
    intro x hx
    rcases List.mem_cons.1 hx with rfl | hx'
    · exact hch.1
    · exact chainFrom_sched days t e hch.2 x hx'

theorem runFrom_gt :
    ∀ (es : List Int) (p : Int), runFrom p es → ∀ x ∈ es, p < x := by
  intro es
  induction es with
  | nil =>
    intro p _ x hx
    cases hx
  | cons e t ih =>
    intro p hr x hx
    simp only [runFrom] at hr
    rcases List.mem_cons.1 hx with rfl | hx'
    · omega
    · have := ih e hr.2 x hx'
      omega

theorem sorted_lt_of_le_nodup {l : List Int} (hs : l.Sorted (· ≤ ·))
    (hn : l.Nodup) : l.Sorted (· < ·) :=
  (List.Pairwise.and hs hn).imp (fun hab => lt_of_le_of_ne hab.1 hab.2)

theorem bestFoldDaily_pot (l : List Int) :
    ∀ st : BState, (st.last = none → st.cur = 0) →
      max st.best st.cur ≤
        max (bestFoldDaily st l).best (bestFoldDaily st l).cur := by
  induction l with
  | nil =>
    intro st _
    simp [bestFoldDaily]
  | cons c t ih =>
    intro st h0
    obtain ⟨best, cur, last⟩ := st
    cases last with
    | none =>
      have hc : cur = 0 := h0 rfl
      subst hc
      simp only [bestFoldDaily]
      have := ih ⟨best, 1, some c⟩ (by simp)
      simp only at this
      omega
    | some p =>
      simp only [bestFoldDaily]
      split
      · have := ih ⟨best, cur + 1, some c⟩ (by simp)
        simp only at this
        omega
      · have := ih ⟨max best cur, 1, some c⟩ (by simp)
        simp only at this
        omega

theorem bestFoldSched_pot (days : List String) (l : List Int) :
    ∀ st : BState, (st.last = none → st.cur = 0) →
      max st.best st.cur ≤
        max (bestFoldSched days st l).best (bestFoldSched days st l).cur := by
  induction l with
  | nil =>
    intro st _
    simp [bestFoldSched]
  | cons c t ih =>
    intro st h0
    obtain ⟨best, cur, last⟩ := st
    by_cases hsc : isScheduledDay days c = true
    · cases last with
      | none =>
        have hc : cur = 0 := h0 rfl
        subst hc
        simp only [bestFoldSched, hsc, if_true]
        have := ih ⟨best, 1, some c⟩ (by simp)
        simp only at this
        omega
      | some p =>
        simp only [bestFoldSched, hsc, if_true]
        split
        · have := ih ⟨best, cur + 1, some c⟩ (by simp)
          simp only at this
          omega
        · have := ih ⟨max best cur, 1, some c⟩ (by simp)
          simp only at this
          omega
    · have hsc' : isScheduledDay days c = false := by
        simpa using hsc
      simp only [bestFoldSched, hsc']
      exact ih ⟨best, cur, last⟩ h0

theorem nextScheduled_eq (days : List String) (a c : Int) (hac : a ≤ c)
    (hc : isScheduledDay days c = true)
    (hgap : ∀ z, a ≤ z → z < c → isScheduledDay days z = false) :
    nextScheduled days a c = c := by
  rw [nextScheduled, if_pos hac]
  by_cases hae : a = c
  · subst hae
    rw [if_pos hc]
  · have ha : isScheduledDay days a = false := hgap a le_rfl (by omega)
    rw [ha]
    simp only [Bool.false_eq_true, if_false]
    exact nextScheduled_eq days (a + 1) c (by omega) hc
      (fun z h1 h2 => hgap z (by omega) h2)
termination_by (c + 1 - a).toNat
decreasing_by simp_wf; omega

theorem chainFrom_snoc (days : List String) :
    ∀ (es : List Int) (p t d : Int), chainFrom days p es →
      ((es = [] ∧ t = p) ∨ es.getLast? = some t) →
      t < d → (∀ z, t < z → z < d → isScheduledDay days z = false) →
      isScheduledDay days d = true →
      chainFrom days p (es ++ [d]) := by
  intro es
  induction es with
  | nil =>
    intro p t d _ hlast htd hgap hd
    rcases hlast with ⟨-, rfl⟩ | hlast
    · exact ⟨htd, hgap, hd, trivial⟩
    · cases hlast
  | cons e t' ih =>
    intro p t d hch hlast htd hgap hd
    simp only [chainFrom] at hch
    rcases hlast with ⟨h, -⟩ | hlast
    · cases h
    · refine ⟨hch.1, hch.2.1, hch.2.2.1, ?_⟩
      cases t' with
      | nil =>
        have ht : t = e := by
          simp only [List.getLast?_singleton] at hlast
          exact (Option.some.injEq _ _ ▸ hlast).symm
        subst ht
        exact ih _ _ d hch.2.2.2 (Or.inl ⟨rfl, rfl⟩) htd hgap hd
      | cons x xs =>
        refine ih e t d hch.2.2.2 (Or.inr ?_) htd hgap hd
        rw [← hlast, List.getLast?_cons_cons]

theorem isChain_snoc (days : List String) (es : List Int) (t d : Int)
    (hch : isChain days es) (hlast : es.getLast? = some t)
    (htd : t < d) (hgap : ∀ z, t < z → z < d → isScheduledDay days z = false)
    (hd : isScheduledDay days d = true) :
    isChain days (es ++ [d]) := by
  cases es with
  | nil => cases hlast
  | cons e t' =>
    simp only [isChain] at hch ⊢
    refine ⟨hch.1, ?_⟩
    cases t' with
    | nil =>
      have ht : t = e := by
        simp only [List.getLast?_singleton] at hlast
        exact (Option.some.injEq _ _ ▸ hlast).symm
      subst ht
      exact chainFrom_snoc days [] _ _ d hch.2 (Or.inl ⟨rfl, rfl⟩) htd hgap hd
    | cons x xs =>
      refine chainFrom_snoc days (x :: xs) e t d hch.2 (Or.inr ?_) htd hgap hd
      rw [← hlast, List.getLast?_cons_cons]

theorem dailyLockstep_spec :
    ∀ (l : List Int) (d : Int) (s : Nat),
      ∃ m : Nat, dailyLockstep l d s = s + m ∧
        ∀ i : Nat, i < m → (d - (i : Int)) ∈ l := by
  intro l
  induction l with
  | nil =>
    intro d s
    exact ⟨0, rfl, fun i hi => absurd hi (Nat.not_lt_zero i)⟩
  | cons c t ih =>
    intro d s
    by_cases hc : c = d
    · obtain ⟨m, hm, hmem⟩ := ih (d - 1) (s + 1)
      refine ⟨m + 1, ?_, ?_⟩
      · simp only [dailyLockstep, if_pos hc, hm]
        omega
      · intro i hi
        cases i with
        | zero =>
          have hde : d - ((0 : Nat) : Int) = c := by omega
          rw [hde]
          exact List.mem_cons_self c t
        | succ j =>
          have := hmem j (by omega)
          have he : d - ((j + 1 : Nat) : Int) = d - 1 - (j : Int) := by
            push_cast
            ring
          rw [he]
          exact List.mem_cons_of_mem _ this
    · exact ⟨0, by simp [dailyLockstep, hc], fun i hi => absurd hi (by omega)⟩

theorem schedWalk_chain (completions : List Int) (days : List String)
    (limit : Int) (d : Int) (s : Nat) :
    ∃ es : List Int,
      (schedWalk completions days limit d s).1 = s + es.length ∧
      isChain days es ∧ (∀ x ∈ es, x ∈ completions ∧ x ≤ d) ∧
      (∀ t, es.getLast? = some t →
        ∀ z, t < z → z ≤ d → isScheduledDay days z = false) := by
  rw [schedWalk]
  split
  next hsch =>
    split
    next hmem =>
      have hdmem : d ∈ completions := List.elem_iff.1 hmem
      split
      next hlim =>
        refine ⟨[d], by simp, ⟨hsch, trivial⟩, ?_, ?_⟩
        · intro x hx
          rcases List.mem_singleton.1 hx with rfl
          exact ⟨hdmem, le_rfl⟩
        · intro t ht z h1 h2
          simp only [List.getLast?_singleton] at ht
          cases ht
          omega
      next hlim =>
        obtain ⟨es', h1, h2, h3, h4⟩ :=
          schedWalk_chain completions days limit (d - 1) (s + 1)
        refine ⟨es' ++ [d], ?_, ?_, ?_, ?_⟩
        · simp only [h1, List.length_append, List.length_singleton]
          omega
        · cases hes : es'.getLast? with
          | none =>
            have : es' = [] := by
              cases es' with
              | nil => rfl
              | cons a b => simp [List.getLast?_cons] at hes
            subst this
            exact ⟨hsch, trivial⟩
          | some t =>
            have htd : t < d := by
              have := (h3 t (List.mem_of_mem_getLast? hes)).2
              omega
            exact isChain_snoc days es' t d h2 hes htd
              (fun z hz1 hz2 => h4 t hes z hz1 (by omega)) hsch
        · intro x hx
          rcases List.mem_append.1 hx with hx' | hx'
          · have := h3 x hx'
            exact ⟨this.1, by omega⟩
          · rcases List.mem_singleton.1 hx' with rfl
            exact ⟨hdmem, le_rfl⟩
        · intro t ht z h1 h2
          rw [List.getLast?_concat] at ht
          cases ht
          omega
    next hmem =>
      exact ⟨[], by simp, trivial, fun x hx => absurd hx (List.not_mem_nil x),
        fun t ht => by cases ht⟩
  next hsch =>
    split
    next hlim =>
      exact ⟨[], by simp, trivial, fun x hx => absurd hx (List.not_mem_nil x),
        fun t ht => by cases ht⟩
    next hlim =>
      obtain ⟨es', h1, h2, h3, h4⟩ :=
        schedWalk_chain completions days limit (d - 1) s
      refine ⟨es', h1, h2, ?_, ?_⟩
      · intro x hx
        have := h3 x hx
        exact ⟨this.1, by omega⟩
      · intro t ht z hz1 hz2
        by_cases hzd : z ≤ d - 1
        · exact h4 t ht z hz1 hzd
        · have : z = d := by omega
          subst this
          simpa using hsch
termination_by (d + 1 - limit).toNat
decreasing_by all_goals simp_wf; omega

theorem bestFoldSched_chain (days : List String) :
    ∀ (L : List Int), L.Sorted (· < ·) →
      ∀ (es : List Int) (p : Int) (st : BState) (k : Nat),
        st.last = some p → k ≤ st.cur →
        chainFrom days p es → es ⊆ L → (∀ x ∈ L, p < x) →
        k + es.length ≤
          max (bestFoldSched days st L).best (bestFoldSched days st L).cur := by
  intro L
  induction L with
  | nil =>
    intro _ es p st k hlast hk hch hsub _
    have hes : es = [] := List.subset_nil.1 hsub
    subst hes
    simp only [bestFoldSched, List.length_nil, Nat.add_zero]
    omega
  | cons c rest ih =>
    intro hs es p st k hlast hk hch hsub hgt
    obtain ⟨best, cur, last⟩ := st
    simp only at hlast hk
    subst hlast
    have hsrest : rest.Sorted (· < ·) := (List.sorted_cons.1 hs).2
    have hcrest : ∀ b ∈ rest, c < b := (List.sorted_cons.1 hs).1
    cases es with
    | nil =>
      have hpot := bestFoldSched_pot days (c :: rest) ⟨best, cur, some p⟩ (by simp)
      simp only at hpot
      simp only [List.length_nil]
      omega
    | cons e t =>
      simp only [chainFrom] at hch
      obtain ⟨hpe, hgap, hsche, hcht⟩ := hch
      by_cases hsc : isScheduledDay days c = true
      · rcases List.mem_cons.1 (hsub (List.mem_cons_self e t)) with heq | hmem
        · subst heq
          have hpc : p < e := hpe
          simp only [bestFoldSched, hsc, if_true]
          rw [if_pos (nextScheduled_eq days (p + 1) e (by omega) hsche
            (fun z h1 h2 => hgap z (by omega) h2))]
          have hsubt : t ⊆ rest := by
            intro x hx
            have hxe := chainFrom_gt days t e hcht x hx
            rcases List.mem_cons.1 (hsub (List.mem_cons_of_mem e hx)) with rfl | h
            · omega
            · exact h
          have := ih hsrest t e ⟨best, cur + 1, some e⟩ (k + 1) rfl
            (by show k + 1 ≤ cur + 1; omega) hcht hsubt hcrest
          simp only at this
          simp only [List.length_cons]
          omega
        · have hce : c < e := hcrest e hmem
          have hpc : p < c := hgt c (List.mem_cons_self c rest)
          have := hgap c hpc hce
          rw [this] at hsc
          cases hsc
      · have hsc' : isScheduledDay days c = false := by simpa using hsc
        simp only [bestFoldSched, hsc']
        refine ih hsrest (e :: t) p ⟨best, cur, some p⟩ k rfl hk
          (by exact ⟨hpe, hgap, hsche, hcht⟩) ?_
          (fun x hx => hgt x (List.mem_cons_of_mem _ hx))
        intro x hx
        have hxs : isScheduledDay days x = true := by
          rcases List.mem_cons.1 hx with rfl | hxt
          · exact hsche
          · exact chainFrom_sched days t e hcht x hxt
        rcases List.mem_cons.1 (hsub hx) with rfl | h
        · rw [hxs] at hsc'
          cases hsc'
        · exact h

theorem bestFoldSched_chain_start (days : List String) :
    ∀ (L : List Int), L.Sorted (· < ·) →
      ∀ (es : List Int) (st : BState),
        isChain days es → es ⊆ L →
        (st.last = none ∨ ∃ p, st.last = some p ∧ ∀ x ∈ L, p < x) →
        (st.last = none → st.cur = 0) →
        es.length ≤
          max (bestFoldSched days st L).best (bestFoldSched days st L).cur := by
  intro L
  induction L with
  | nil =>
    intro _ es st hch hsub _ _
    rw [List.subset_nil.1 hsub]
    exact Nat.zero_le _
  | cons c rest ih =>
    intro hs es st hch hsub hOr h0
    obtain ⟨best, cur, last⟩ := st
    have hsrest : rest.Sorted (· < ·) := (List.sorted_cons.1 hs).2
    have hcrest : ∀ b ∈ rest, c < b := (List.sorted_cons.1 hs).1
    cases es with
    | nil => exact Nat.zero_le _
    | cons e t =>
      simp only [isChain] at hch
      obtain ⟨hsche, hcht⟩ := hch
      by_cases hsc : isScheduledDay days c = true
      · rcases List.mem_cons.1 (hsub (List.mem_cons_self e t)) with heq | hmem
        · subst heq
          have hsubt : t ⊆ rest := by
            intro x hx
            have hxe := chainFrom_gt days t e hcht x hx
            rcases List.mem_cons.1 (hsub (List.mem_cons_of_mem e hx)) with rfl | h
            · omega
            · exact h
          cases last with
          | none =>
            simp only [bestFoldSched, hsc, if_true]
            have := bestFoldSched_chain days rest hsrest t e ⟨best, 1, some e⟩ 1
              rfl le_rfl hcht hsubt hcrest
            simp only at this
            simp only [List.length_cons]
            omega
          | some p =>
            simp only [bestFoldSched, hsc, if_true]
            split
            · have := bestFoldSched_chain days rest hsrest t e ⟨best, cur + 1, some e⟩ 1
                rfl (by show (1 : Nat) ≤ cur + 1; omega) hcht hsubt hcrest
              simp only at this
              simp only [List.length_cons]
              omega
            · have := bestFoldSched_chain days rest hsrest t e ⟨max best cur, 1, some e⟩ 1
                rfl le_rfl hcht hsubt hcrest
              simp only at this
              simp only [List.length_cons]
              omega
        · have hce : c < e := hcrest e hmem
          have hsubes : (e :: t) ⊆ rest := by
            intro x hx
            have hcx : c < x := by
              rcases List.mem_cons.1 hx with rfl | hxt
              · exact hce
              · exact lt_trans hce (chainFrom_gt days t e hcht x hxt)
            rcases List.mem_cons.1 (hsub hx) with rfl | h
            · omega
            · exact h
          cases last with
          | none =>
            simp only [bestFoldSched, hsc, if_true]
            exact ih hsrest (e :: t) ⟨best, 1, some c⟩ ⟨hsche, hcht⟩ hsubes
              (Or.inr ⟨c, rfl, hcrest⟩) (by simp)
          | some p =>
            simp only [bestFoldSched, hsc, if_true]
            split
            · exact ih hsrest (e :: t) ⟨best, cur + 1, some c⟩ ⟨hsche, hcht⟩ hsubes
                (Or.inr ⟨c, rfl, hcrest⟩) (by simp)
            · exact ih hsrest (e :: t) ⟨max best cur, 1, some c⟩ ⟨hsche, hcht⟩ hsubes
                (Or.inr ⟨c, rfl, hcrest⟩) (by simp)
      · have hsc' : isScheduledDay days c = false := by simpa using hsc
        simp only [bestFoldSched, hsc']
        refine ih hsrest (e :: t) ⟨best, cur, last⟩ ⟨hsche, hcht⟩ ?_ ?_ h0
        · intro x hx
          have hxs : isScheduledDay days x = true := by
            rcases List.mem_cons.1 hx with rfl | hxt
            · exact hsche
            · exact chainFrom_sched days t e hcht x hxt
          rcases List.mem_cons.1 (hsub hx) with rfl | h
          · rw [hxs] at hsc'
            cases hsc'
          · exact h
        · rcases hOr with h | ⟨p, hp, hall⟩
          · exact Or.inl h
          · exact Or.inr ⟨p, hp, fun x hx => hall x (List.mem_cons_of_mem _ hx)⟩

theorem bestFoldDaily_run :
    ∀ (L : List Int), L.Sorted (· < ·) →
      ∀ (es : List Int) (p : Int) (st : BState) (k : Nat),
        st.last = some p → k ≤ st.cur →
        runFrom p es → es ⊆ L → (∀ x ∈ L, p < x) →
        k + es.length ≤
          max (bestFoldDaily st L).best (bestFoldDaily st L).cur := by
  intro L
  induction L with
  | nil =>
    intro _ es p st k hlast hk hr hsub _
    have hes : es = [] := List.subset_nil.1 hsub
    subst hes
    simp only [bestFoldDaily, List.length_nil, Nat.add_zero]
    omega
  | cons c rest ih =>
    intro hs es p st k hlast hk hr hsub hgt
    obtain ⟨best, cur, last⟩ := st
    simp only at hlast hk
    subst hlast
    have hsrest : rest.Sorted (· < ·) := (List.sorted_cons.1 hs).2
    have hcrest : ∀ b ∈ rest, c < b := (List.sorted_cons.1 hs).1
    cases es with
    | nil =>
      have hpot := bestFoldDaily_pot (c :: rest) ⟨best, cur, some p⟩ (by simp)
      simp only at hpot
      simp only [List.length_nil]
      omega
    | cons e t =>
      simp only [runFrom] at hr
      obtain ⟨he, hrt⟩ := hr
      have hpc : p < c := hgt c (List.mem_cons_self c rest)
      rcases List.mem_cons.1 (hsub (List.mem_cons_self e t)) with heq | hmem
      · subst heq
        simp only [bestFoldDaily]
        rw [if_pos (by omega)]
        have hsubt : t ⊆ rest := by
          intro x hx
          have hxe := runFrom_gt t e hrt x hx
          rcases List.mem_cons.1 (hsub (List.mem_cons_of_mem e hx)) with rfl | h
          · omega
          · exact h
        have := ih hsrest t e ⟨best, cur + 1, some e⟩ (k + 1) rfl
          (by show k + 1 ≤ cur + 1; omega) hrt hsubt hcrest
        simp only at this
        simp only [List.length_cons]
        omega
      · have hce : c < e := hcrest e hmem
        omega

theorem bestFoldDaily_run_start :
    ∀ (L : List Int), L.Sorted (· < ·) →
      ∀ (es : List Int) (st : BState),
        isRun es → es ⊆ L →
        (st.last = none ∨ ∃ p, st.last = some p ∧ ∀ x ∈ L, p < x) →
        (st.last = none → st.cur = 0) →
        es.length ≤
          max (bestFoldDaily st L).best (bestFoldDaily st L).cur := by
  intro L
  induction L with
  | nil =>
    intro _ es st hch hsub _ _
    rw [List.subset_nil.1 hsub]
    exact Nat.zero_le _
  | cons c rest ih =>
    intro hs es st hch hsub hOr h0
    obtain ⟨best, cur, last⟩ := st
    have hsrest : rest.Sorted (· < ·) := (List.sorted_cons.1 hs).2
    have hcrest : ∀ b ∈ rest, c < b := (List.sorted_cons.1 hs).1
    cases es with
    | nil => exact Nat.zero_le _
    | cons e t =>
      simp only [isRun] at hch
      rcases List.mem_cons.1 (hsub (List.mem_cons_self e t)) with heq | hmem
      · subst heq
        have hsubt : t ⊆ rest := by
          intro x hx
          have hxe := runFrom_gt t e hch x hx
          rcases List.mem_cons.1 (hsub (List.mem_cons_of_mem e hx)) with rfl | h
          · omega
          · exact h
        cases last with
        | none =>
          simp only [bestFoldDaily]
          have := bestFoldDaily_run rest hsrest t e ⟨best, 1, some e⟩ 1
            rfl le_rfl hch hsubt hcrest
          simp only at this
          simp only [List.length_cons]
          omega
        | some p =>
          simp only [bestFoldDaily]
          split
          · have := bestFoldDaily_run rest hsrest t e ⟨best, cur + 1, some e⟩ 1
              rfl (by show (1 : Nat) ≤ cur + 1; omega) hch hsubt hcrest
            simp only at this
            simp only [List.length_cons]
            omega
          · have := bestFoldDaily_run rest hsrest t e ⟨max best cur, 1, some e⟩ 1
              rfl le_rfl hch hsubt hcrest
            simp only at this
            simp only [List.length_cons]
            omega
      · have hce : c < e := hcrest e hmem
        have hsubes : (e :: t) ⊆ rest := by
          intro x hx
          have hcx : c < x := by
            rcases List.mem_cons.1 hx with rfl | hxt
            · exact hce
            · exact lt_trans hce (runFrom_gt t e hch x hxt)
          rcases List.mem_cons.1 (hsub hx) with rfl | h
          · omega
          · exact h
        cases last with
        | none =>
          simp only [bestFoldDaily]
          exact ih hsrest (e :: t) ⟨best, 1, some c⟩ hch hsubes
            (Or.inr ⟨c, rfl, hcrest⟩) (by simp)
        | some p =>
          simp only [bestFoldDaily]
          split
          · exact ih hsrest (e :: t) ⟨best, cur + 1, some c⟩ hch hsubes
              (Or.inr ⟨c, rfl, hcrest⟩) (by simp)
          · exact ih hsrest (e :: t) ⟨max best cur, 1, some c⟩ hch hsubes
              (Or.inr ⟨c, rfl, hcrest⟩) (by simp)

theorem calculateBestStreak_ge_chain (completions : List Int) (days : List String)
    (hnd : completions.Nodup) (hdays : days ≠ [])
    (es : List Int) (hch : isChain days es) (hsub : es ⊆ completions) :
    es.length ≤ calculateBestStreak completions days := by
  by_cases hc : completions = []
  · subst hc
    rw [List.subset_nil.1 hsub]
    exact Nat.zero_le _
  · simp only [calculateBestStreak, if_neg hc, if_neg hdays]
    have hperm := List.perm_insertionSort (· ≤ ·) completions
    have hsorted : (completions.insertionSort (· ≤ ·)).Sorted (· ≤ ·) :=
      List.sorted_insertionSort _ _
    have hnodS : (completions.insertionSort (· ≤ ·)).Nodup := hperm.nodup_iff.2 hnd
    exact bestFoldSched_chain_start days _ (sorted_lt_of_le_nodup hsorted hnodS) es
      ⟨0, 0, none⟩ hch (fun x hx => hperm.mem_iff.2 (hsub hx)) (Or.inl rfl)
      (fun _ => rfl)

theorem calculateBestStreak_ge_run (completions : List Int)
    (hnd : completions.Nodup) (es : List Int) (hrun : isRun es)
    (hsub : es ⊆ completions) :
    es.length ≤ calculateBestStreak completions [] := by
  by_cases hc : completions = []
  · subst hc
    rw [List.subset_nil.1 hsub]
    exact Nat.zero_le _
  · simp only [calculateBestStreak, if_neg hc, if_pos rfl]
    have hperm := List.perm_insertionSort (· ≤ ·) completions
    have hsorted : (completions.insertionSort (· ≤ ·)).Sorted (· ≤ ·) :=
      List.sorted_insertionSort _ _
    have hnodS : (completions.insertionSort (· ≤ ·)).Nodup := hperm.nodup_iff.2 hnd
    exact bestFoldDaily_run_start _ (sorted_lt_of_le_nodup hsorted hnodS) es
      ⟨0, 0, none⟩ hrun (fun x hx => hperm.mem_iff.2 (hsub hx)) (Or.inl rfl)
      (fun _ => rfl)

/-- C2: for every consistent completion set (duplicate-free, every date
between the habit's creation date and today) and every schedule, the best
streak is at least the current streak. -/
theorem currentStreak_le_bestStreak (completions : List Int)
    (selectedDays : List String) (created today : Int)
    (hnd : completions.Nodup)
    (hbound : ∀ c ∈ completions, created ≤ c ∧ c ≤ today) :
    calculateStreak completions selectedDays today ≤
      calculateBestStreak completions selectedDays := by
  by_cases hc : completions = []
  · simp [calculateStreak, hc]
  · have hperm := List.perm_insertionSort (· ≥ ·) completions
    by_cases hd : selectedDays = []
    · subst hd
      simp only [calculateStreak, if_neg hc, if_pos rfl, if_true]
      by_cases hT : (completions.insertionSort (· ≥ ·)).contains today = true
      · rw [if_pos hT]
        obtain ⟨m, hm, hmem⟩ :=
          dailyLockstep_spec (completions.insertionSort (· ≥ ·)) (today - 1) 1
        rw [hm]
        refine le_trans ?_ (calculateBestStreak_ge_run completions hnd
          (getDateRange (today - (m : Int)) today) (isRun_getDateRange _ _) ?_)
        · rw [getDateRange_length]
          omega
        · intro x hx
          have hxb := mem_getDateRange.1 hx
          by_cases hxt : x = today
          · subst hxt
            exact hperm.mem_iff.1 (List.elem_iff.1 hT)
          · obtain ⟨i, hi1, hi2⟩ : ∃ i : Nat, (i : Int) = today - 1 - x ∧ i < m :=
              ⟨(today - 1 - x).toNat, by omega, by omega⟩
            have hx' := hmem i hi2
            have hxe : today - 1 - (i : Int) = x := by omega
            rw [hxe] at hx'
            exact hperm.mem_iff.1 hx'
      · rw [if_neg hT]
        obtain ⟨m, hm, hmem⟩ :=
          dailyLockstep_spec (completions.insertionSort (· ≥ ·)) (today - 1) 0
        rw [hm]
        refine le_trans ?_ (calculateBestStreak_ge_run completions hnd
          (getDateRange (today - (m : Int)) (today - 1)) (isRun_getDateRange _ _) ?_)
        · rw [getDateRange_length]
          omega
        · intro x hx
          have hxb := mem_getDateRange.1 hx
          obtain ⟨i, hi1, hi2⟩ : ∃ i : Nat, (i : Int) = today - 1 - x ∧ i < m :=
            ⟨(today - 1 - x).toNat, by omega, by omega⟩
          have hx' := hmem i hi2
          have hxe : today - 1 - (i : Int) = x := by omega
          rw [hxe] at hx'
          exact hperm.mem_iff.1 hx'
    · simp only [calculateStreak, if_neg hc, if_neg hd]
      by_cases hcond : (isScheduledDay selectedDays today &&
          (completions.insertionSort (· ≥ ·)).contains today) = true
      · rw [if_pos hcond]
        rw [Bool.and_eq_true] at hcond
        obtain ⟨hstoday, hctoday⟩ := hcond
        have htodaym : today ∈ completions :=
          hperm.mem_iff.1 (List.elem_iff.1 hctoday)
        obtain ⟨es, h1, h2, h3, h4⟩ := schedWalk_chain
          (completions.insertionSort (· ≥ ·)) selectedDays (today - 365)
          (today - 1) 1
        rw [h1]
        have hchainfull : isChain selectedDays (es ++ [today]) := by
          cases hlastq : es.getLast? with
          | none =>
            have hes : es = [] := by
              cases es with
              | nil => rfl
              | cons a b => simp [List.getLast?_cons] at hlastq
            subst hes
            exact ⟨hstoday, trivial⟩
          | some t =>
            have htd : t < today := by
              have := (h3 t (List.mem_of_mem_getLast? hlastq)).2
              omega
            exact isChain_snoc _ es t today h2 hlastq htd
              (fun z hz1 hz2 => h4 t hlastq z hz1 (by omega)) hstoday
        refine le_trans ?_ (calculateBestStreak_ge_chain completions selectedDays
          hnd hd (es ++ [today]) hchainfull ?_)
        · rw [List.length_append, List.length_singleton]
          omega
        · intro x hx
          rcases List.mem_append.1 hx with hx' | hx'
          · exact hperm.mem_iff.1 (h3 x hx').1
          · rcases List.mem_singleton.1 hx' with rfl
            exact htodaym
      · rw [if_neg hcond]
        obtain ⟨es, h1, h2, h3, h4⟩ := schedWalk_chain
          (completions.insertionSort (· ≥ ·)) selectedDays (today - 365)
          (today - 1) 0
        rw [h1]
        refine le_trans (by omega) (calculateBestStreak_ge_chain completions
          selectedDays hnd hd es h2 ?_)
        intro x hx
        exact hperm.mem_iff.1 (h3 x hx).1

/-- Witness for C2 at a concrete input: a daily habit with completions on
days 3, 4, 5 (no duplicates, all between creation day 3 and today = 5). -/
theorem currentStreak_le_bestStreak_witness :
    calculateStreak [3, 4, 5] [] 5 ≤ calculateBestStreak [3, 4, 5] [] :=
  currentStreak_le_bestStreak [3, 4, 5] [] 3 5 (by decide) (by decide)
